import Mathlib

/-!
# Verification of the cryptoforge RSA cryptosystem

Shallow embedding of the core of the `cryptoforge` repository
(`src/utils/math.py`, `src/crypto/prime.py`, `src/crypto/padding.py`,
`src/utils/encoding.py`, `src/core/keypair.py`, `src/engine/rsa.py`)
together with proofs settling the frozen claims about it.

Modelling conventions:
* Python unbounded integers become `Nat` (non-negative contexts) or `Int`
  (where the source can see negative values).  Python `%` and `//` on `Int`
  are floor-mod and floor-div, embedded as `Int.fmod` / `Int.fdiv`.
* Fallible Python code (functions that `raise`) returns `Except String _`.
* Loops are embedded as fuel-indexed structural recursions; the fuel is
  always provably sufficient (lemmas below), so the embedding computes the
  same value as the Python loop on every input the theorems mention.
* Randomness (`secrets`, `random`) is passed in explicitly: the random
  padding string, the Miller-Rabin base draws and the random candidate value
  become parameters, quantified in the theorems over every outcome the
  Python random source can produce.
* External collaborators (base64 codec, UTF-8 codec, hash digests: Python
  stdlib, not repository code) are injected as function parameters,
  constrained only by their round-trip contracts.
-/

namespace Cryptoforge

/-! ## `src/utils/math.py` -/

/-- Loop body of `fast_modular_exponentiation` (src/utils/math.py lines 74-82):
`while exponent > 0: if exponent % 2 == 1: result = result*base % m;
exponent >>= 1; base = base*base % m`.  The fuel only bounds the iteration
count; the loop exits via `exponent = 0`, and fuel `= exponent` is enough
because the exponent halves every step. -/
def fmeLoop : Nat → Nat → Nat → Nat → Nat → Nat
  | 0, result, _, _, _ => result
  | fuel + 1, result, base, exponent, modulus =>
    if exponent = 0 then result
    else
      fmeLoop fuel (if exponent % 2 = 1 then result * base % modulus else result)
        (base * base % modulus) (exponent / 2) modulus

/-- Embedding of `fast_modular_exponentiation` (src/utils/math.py lines 61-84).
Python raises `ZeroDivisionError` for `modulus = 0`; the embedding is only
ever used (and only ever reasoned about) with a positive modulus. -/
def fast_modular_exponentiation (base exponent modulus : Nat) : Nat :=
  if modulus = 1 then 0
  else fmeLoop exponent 1 (base % modulus) exponent modulus

/-- Loop of `gcd` (src/utils/math.py lines 10-20): iterative Euclid over
Python ints, `a, b = b, a % b` with Python floor-mod (`Int.fmod`).  Fuel
`natAbs b + 1` always suffices since `|a fmod b| < |b|` for `b ≠ 0`
(`fmod_natAbs_lt` below). -/
def gcdLoop : Nat → Int → Int → Int
  | 0, a, _ => a
  | fuel + 1, a, b => if b = 0 then a else gcdLoop fuel b (Int.fmod a b)

/-- Embedding of `gcd` (src/utils/math.py lines 10-20). -/
def gcd (a b : Int) : Int :=
  gcdLoop (b.natAbs + 1) a b

/-- Loop body of `extended_euclidean` (src/utils/math.py lines 23-38), a
fuel-indexed rendering of the recursion
`if b == 0: return (a,1,0); g,x1,y1 = extended_euclidean(b, a % b);
return (g, y1, x1 - (a//b)*y1)` with Python floor-mod/floor-div.
Fuel `natAbs b + 1` always suffices since `|a fmod b| < |b|`. -/
def eeLoop : Nat → Int → Int → Int × Int × Int
  | 0, a, _ => (a, 1, 0)
  | fuel + 1, a, b =>
    if b = 0 then (a, 1, 0)
    else
      let r := eeLoop fuel b (Int.fmod a b)
      (r.1, r.2.2, r.2.1 - Int.fdiv a b * r.2.2)

/-- Embedding of `extended_euclidean` (src/utils/math.py lines 23-38). -/
def extended_euclidean (a b : Int) : Int × Int × Int :=
  eeLoop (b.natAbs + 1) a b

/-- Embedding of `modular_inverse` (src/utils/math.py lines 41-58):
raises when the gcd returned by `extended_euclidean` is not 1, otherwise
returns `(x % m + m) % m` (Python floor-mod). -/
def modular_inverse (a m : Int) : Except String Int :=
  let r := extended_euclidean a m
  if r.1 ≠ 1 then .error "Modular inverse does not exist"
  else .ok (Int.fmod (Int.fmod r.2.1 m + m) m)

/-- Embedding of `lcm` (src/utils/math.py lines 87-95): `abs(a*b) // gcd(a, b)`.
The Python floor-division is unguarded and raises `ZeroDivisionError` when
`gcd(a, b) = 0`; the embedding returns `none` exactly there. -/
def lcm (a b : Int) : Option Int :=
  let g := gcd a b
  if g = 0 then none else some (Int.fdiv |a * b| g)

/-! ## Python `int.bit_length` (used by `RSAKeyPair.key_size`) -/

/-- Fuel-indexed loop computing the number of binary digits; fuel `= n` is
enough since the argument halves every step. -/
def bitLenLoop : Nat → Nat → Nat
  | 0, _ => 0
  | fuel + 1, n => if n = 0 then 0 else bitLenLoop fuel (n / 2) + 1

/-- Python `int.bit_length()` for non-negative ints: the number of binary
digits, with `bit_length 0 = 0`. -/
def bit_length (n : Nat) : Nat := bitLenLoop n n

/-! ## `src/utils/encoding.py` -/

/-- Embedding of `bytes_to_int` (src/utils/encoding.py lines 5-13): big-endian
`int.from_bytes`. -/
def bytes_to_int (data : List Nat) : Nat :=
  data.foldl (fun acc b => acc * 256 + b) 0

/-- Big-endian digits of `number`, exactly `length` bytes, helper for
`int_to_bytes`. -/
def intToBytesAux : Nat → Nat → List Nat
  | 0, _ => []
  | length + 1, number => intToBytesAux length (number / 256) ++ [number % 256]

/-- Embedding of `int_to_bytes` (src/utils/encoding.py lines 16-25): big-endian
`int.to_bytes(length)`, which raises `OverflowError` when the number does
not fit in `length` bytes. -/
def int_to_bytes (number length : Nat) : Except String (List Nat) :=
  if number < 256 ^ length then .ok (intToBytesAux length number)
  else .error "int too big to convert"

/-- Embedding of `calculate_byte_length` (src/utils/encoding.py lines 28-36):
`(key_size + 7) // 8`. -/
def calculate_byte_length (key_size : Nat) : Nat :=
  (key_size + 7) / 8

/-! ## `src/crypto/padding.py` -/

/-- The scan of `remove_pkcs1_padding` (src/crypto/padding.py lines 86-90):
index of the first `0x00` byte, `none` when there is none. -/
def findZero : List Nat → Option Nat
  | [] => none
  | b :: rest => if b = 0 then some 0 else (findZero rest).map (· + 1)

/-- Embedding of `apply_pkcs1_padding` (src/crypto/padding.py lines 4-56).
The random non-zero padding string drawn by the `secrets.randbits(8)`
resampling loop (lines 32-40) is injected as `ps`; theorems quantify over
every outcome that loop can produce (`target_length - len(message) - 3`
bytes, each in `[1, 255]`).  The length comparisons are over `Int` exactly
as Python computes them; the final length check (lines 53-54) is kept and
rejects an injected `ps` of the wrong length, which the Python loop can
never draw. -/
def apply_pkcs1_padding (message : List Nat) (target_length : Nat)
    (padding_type : String) (ps : List Nat) : Except String (List Nat) :=
  if (message.length : Int) > (target_length : Int) - 11 then
    .error "Message too long for padding"
  else if (target_length : Int) < 11 then
    .error "Target length must be at least 11 bytes"
  else if padding_type = "encryption" then
    let padded := 0 :: 2 :: (ps ++ 0 :: message)
    if padded.length ≠ target_length then .error "Padding error" else .ok padded
  else if padding_type = "signature" then
    let padding_string := List.replicate (target_length - message.length - 3) 255
    let padded := 0 :: 1 :: (padding_string ++ 0 :: message)
    if padded.length ≠ target_length then .error "Padding error" else .ok padded
  else
    .error "padding_type must be encryption or signature"

/-- Embedding of `remove_pkcs1_padding` (src/crypto/padding.py lines 59-118). -/
def remove_pkcs1_padding (padded_message : List Nat)
    (padding_type : String) : Except String (List Nat) :=
  if padded_message.length < 11 then .error "Padded message too short"
  else
    match padded_message with
    | b0 :: b1 :: rest =>
      if b0 ≠ 0 then .error "Invalid padding: first byte must be 0x00"
      else
        let expected_bt : Nat := if padding_type = "encryption" then 2 else 1
        if b1 ≠ expected_bt then .error "Invalid padding: wrong block type"
        else
          match findZero rest with
          | none => .error "Invalid padding: separator not found"
          | some i =>
            if i < 8 then .error "Invalid padding: padding string too short"
            else if padding_type = "encryption" ∧ (rest.take i).any (· = 0) then
              .error "Invalid padding: zero byte in encryption padding"
            else if padding_type = "signature" ∧ (rest.take i).any (· ≠ 255) then
              .error "Invalid padding: non-0xFF byte in signature padding"
            else
              let message := rest.drop (i + 1)
              if message.length = 0 then .error "Invalid padding: empty message"
              else .ok message
    | _ => .error "Padded message too short"

/-! ## `src/crypto/prime.py` -/

/-- Embedding of `SMALL_PRIMES` (src/crypto/prime.py lines 14-19). -/
def SMALL_PRIMES : List Nat :=
  [2, 3, 5, 7, 11, 13, 17, 19, 23, 29, 31, 37, 41, 43, 47, 53, 59, 61, 67, 71,
   73, 79, 83, 89, 97, 101, 103, 107, 109, 113, 127, 131, 137, 139, 149, 151,
   157, 163, 167, 173, 179, 181, 191, 193, 197, 199, 211, 223, 227, 229, 233,
   239, 241, 251, 257, 263, 269, 271, 277, 281, 283, 293, 307, 311, 313, 317]

/-- Embedding of `is_divisible_by_small_primes` (src/crypto/prime.py lines 22-33):
for the first small prime dividing `n` it returns `n == prime`; with no
divisor in the table it returns `False`. -/
def is_divisible_by_small_primes (n : Nat) : Bool :=
  match SMALL_PRIMES.find? (fun prime => n % prime == 0) with
  | some prime => n == prime
  | none => false

/-- The squaring loop of `miller_rabin_witness` (src/utils/math.py lines
162-167): `for _ in range(r-1): x = x^2 mod n; if x == n-1: return False`,
then `return True`. -/
def mrSquareLoop : Nat → Nat → Nat → Bool
  | 0, _, _ => true
  | count + 1, x, n =>
    let x' := fast_modular_exponentiation x 2 n
    if x' = n - 1 then false else mrSquareLoop count x' n

/-- Embedding of `miller_rabin_witness` (src/utils/math.py lines 146-167). -/
def miller_rabin_witness (a n d r : Nat) : Bool :=
  let x := fast_modular_exponentiation a d n
  if x = 1 ∨ x = n - 1 then false
  else mrSquareLoop (r - 1) x n

/-- The factor-out-twos loop of `miller_rabin_test` (src/crypto/prime.py
lines 59-63): `r = 0; d = n-1; while d % 2 == 0: r += 1; d //= 2`,
returning `(r, d)`.  Fuel `= d` suffices since `d` halves every step
(and the loop is only entered with `d ≥ 1`). -/
def factorTwos : Nat → Nat → Nat × Nat
  | 0, d => (0, d)
  | fuel + 1, d =>
    if d % 2 = 0 then
      let r := factorTwos fuel (d / 2)
      (r.1 + 1, r.2)
    else (0, d)

/-- Embedding of `miller_rabin_test` (src/crypto/prime.py lines 36-75).  The random base
drawn in round `i` (`secrets.randbelow(n-3) + 2` or `random.randint(2, n-2)`,
both ranging over `[2, n-2]`) is injected as `draws i`; theorems quantify
over or instantiate those draws. -/
def miller_rabin_test (n k : Nat) (draws : Nat → Nat) : Bool :=
  if n < 2 then false
  else if n ∈ SMALL_PRIMES then true
  else if is_divisible_by_small_primes n then false
  else if n % 2 = 0 then false
  else
    let rd := factorTwos (n - 1) (n - 1)
    (List.range k).all fun i => ! miller_rabin_witness (draws i) n rd.2 rd.1

/-- Embedding of `generate_random_odd` (src/crypto/prime.py lines 78-99).  The random
value (`int.from_bytes(secrets.token_bytes((bit_length+7)//8))` when secure,
`random.getrandbits(bit_length)` otherwise) is injected as `randomValue`;
the secure source ranges over `[0, 2^(8*((bit_length+7)//8)))`, the
non-secure one over `[0, 2^bit_length)`.  Both branches then do
`n |= 1 << (bit_length - 1); n |= 1`. -/
def generate_random_odd (bit_len : Nat) (secure : Bool) (randomValue : Nat) : Nat :=
  randomValue ||| (1 <<< (bit_len - 1)) ||| 1

/-! ## `src/core/keypair.py` and `src/engine/rsa.py` -/

/-- Embedding of `RSAKeyPair` (src/core/keypair.py lines 12-23): `public_key = (e, n)`,
optional `private_key = d`, `modulus` (the engine always passes `n`). -/
structure RSAKeyPair where
  public_key : Nat × Nat
  private_key : Option Nat
  modulus : Nat

/-- Embedding of `RSAKeyPair.key_size` (src/core/keypair.py lines 25-28):
`modulus.bit_length()`. -/
def RSAKeyPair.key_size (kp : RSAKeyPair) : Nat :=
  bit_length kp.modulus

/-- Embedding of `RSAEngine.encrypt_number` (src/engine/rsa.py lines 75-83).  The engine
state `self._key_pair` is the `Option RSAKeyPair` argument. -/
def encrypt_number (key_pair : Option RSAKeyPair) (message : Nat) : Except String Nat :=
  match key_pair with
  | none => .error "No key pair loaded"
  | some kp =>
    if message ≥ kp.modulus then .error "Message too large for key size"
    else
      .ok (fast_modular_exponentiation message kp.public_key.1 kp.modulus)

/-- Embedding of `RSAEngine.decrypt_number` (src/engine/rsa.py lines 85-90): no range
check on the ciphertext. -/
def decrypt_number (key_pair : Option RSAKeyPair) (ciphertext : Nat) : Except String Nat :=
  match key_pair with
  | none => .error "No private key available for decryption"
  | some kp =>
    match kp.private_key with
    | none => .error "No private key available for decryption"
    | some d => .ok (fast_modular_exponentiation ciphertext d kp.modulus)

/-- Embedding of `RSAEngine.encrypt_text` (src/engine/rsa.py lines 92-107).  The UTF-8
encoder and base64 encoder (Python stdlib, external collaborators) are
injected as `utf8encode` / `b64encode`; the random padding string as `ps`. -/
def encrypt_text (key_pair : Option RSAKeyPair)
    (utf8encode : String → List Nat) (b64encode : List Nat → String)
    (ps : List Nat) (message : String) : Except String String :=
  match key_pair with
  | none => .error "No key pair loaded"
  | some kp =>
    let message_bytes := utf8encode message
    let byte_length := calculate_byte_length kp.key_size
    if (message_bytes.length : Int) > (byte_length : Int) - 11 then
      .error "Message too long"
    else do
      let padded_message ← apply_pkcs1_padding message_bytes byte_length "encryption" ps
      let message_int := bytes_to_int padded_message
      let encrypted_int ← encrypt_number (some kp) message_int
      let encrypted_bytes ← int_to_bytes encrypted_int byte_length
      return b64encode encrypted_bytes

/-- Embedding of `RSAEngine.decrypt_text` (src/engine/rsa.py lines 109-124): the no-key /
no-private-key check happens outside the `try`; every failure inside it is
re-raised as a single wrapped `ValueError`.  The base64 and UTF-8 decoders
are injected. -/
def decrypt_text (key_pair : Option RSAKeyPair)
    (b64decode : String → Except String (List Nat))
    (utf8decode : List Nat → Except String String)
    (encrypted_message : String) : Except String String :=
  match key_pair with
  | none => .error "No private key available for decryption"
  | some kp =>
    match kp.private_key with
    | none => .error "No private key available for decryption"
    | some _ =>
      let attempt : Except String String := do
        let encrypted_bytes ← b64decode encrypted_message
        let encrypted_int := bytes_to_int encrypted_bytes
        let decrypted_int ← decrypt_number (some kp) encrypted_int
        let byte_length := calculate_byte_length kp.key_size
        let decrypted_bytes ← int_to_bytes decrypted_int byte_length
        let message_bytes ← remove_pkcs1_padding decrypted_bytes "encryption"
        utf8decode message_bytes
      match attempt with
      | .ok s => .ok s
      | .error e => .error ("Decryption failed: " ++ e)

/-- The `try` body of `RSAEngine.verify_signature` (src/engine/rsa.py lines
193-217): every internal failure produces `false`.  `hashKnown` is whether
`hash_algorithm` is one of sha256/sha384/sha512; `decodeRes` the outcome of
`decode_base64(signature)`; `digest` the (external) hash of the encoded
message. -/
def verifyBody (kp : RSAKeyPair) (hashKnown : Bool)
    (decodeRes : Except String (List Nat)) (digest : List Nat) : Bool :=
  if ¬ hashKnown then false
  else
    match decodeRes with
    | .error _ => false
    | .ok signature_bytes =>
      let signature_int := bytes_to_int signature_bytes
      match encrypt_number (some kp) signature_int with
      | .error _ => false
      | .ok decrypted_int =>
        let byte_length := calculate_byte_length kp.key_size
        match int_to_bytes decrypted_int byte_length with
        | .error _ => false
        | .ok decrypted_bytes =>
          match remove_pkcs1_padding decrypted_bytes "signature" with
          | .error _ => false
          | .ok decrypted_hash => decrypted_hash == digest

/-- Embedding of `RSAEngine.verify_signature` (src/engine/rsa.py lines 188-217): the
`if not self._key_pair: raise ValueError(...)` check sits before the `try`
block, so it propagates; everything after it is `verifyBody`. -/
def verify_signature (key_pair : Option RSAKeyPair) (hashKnown : Bool)
    (decodeRes : Except String (List Nat)) (digest : List Nat) :
    Except String Bool :=
  match key_pair with
  | none => .error "No key pair loaded"
  | some kp => .ok (verifyBody kp hashKnown decodeRes digest)

/-! ## Concrete stand-ins for the injected collaborators

`encrypt_text` / `decrypt_text` take the base64 and UTF-8 codecs as
parameters (they are Python-stdlib externals).  For witnesses and
counterexamples we instantiate them with a byte-transparent codec that
stores each byte as one character; it satisfies the same round-trip
contract the real codecs satisfy at the points the pipeline uses them. -/

/-- Byte-transparent stand-in for `encode_base64`. -/
def chr_b64encode (data : List Nat) : String :=
  ⟨data.map Char.ofNat⟩

/-- Byte-transparent stand-in for `decode_base64`. -/
def chr_b64decode (data : String) : Except String (List Nat) :=
  .ok (data.data.map Char.toNat)

/-- Byte-transparent stand-in for `str.encode`. -/
def chr_utf8_encode (s : String) : List Nat :=
  s.data.map Char.toNat

/-- Byte-transparent stand-in for `bytes.decode`. -/
def chr_utf8_decode (bs : List Nat) : Except String String :=
  .ok ⟨bs.map Char.ofNat⟩

/-! ## Lemmas: `fast_modular_exponentiation` -/

theorem fmeLoop_eq (m : Nat) (hm : 2 ≤ m) :
    ∀ fuel e r b, e ≤ fuel → r < m →
      fmeLoop fuel r b e m = (r * b ^ e) % m := by
  intro fuel
  induction fuel with
  | zero =>
    intro e r b he hr
    have he0 : e = 0 := Nat.le_zero.mp he
    subst he0
    simp [fmeLoop, Nat.mod_eq_of_lt hr]
  | succ fuel ih =>
    intro e r b he hr
    by_cases he0 : e = 0
    · subst he0
      simp [fmeLoop, Nat.mod_eq_of_lt hr]
    · have hstep : fmeLoop (fuel + 1) r b e m =
          fmeLoop fuel (if e % 2 = 1 then r * b % m else r) (b * b % m) (e / 2) m := by
        simp [fmeLoop, he0]
      have hehalf : e / 2 ≤ fuel := by omega
      have hr' : (if e % 2 = 1 then r * b % m else r) < m := by
        by_cases hpar : e % 2 = 1 <;> simp [hpar, Nat.mod_lt _ (by omega : 0 < m), hr]
      rw [hstep, ih (e / 2) _ _ hehalf hr']
      have h1 : (if e % 2 = 1 then r * b % m else r) ≡ r * b ^ (e % 2) [MOD m] := by
        by_cases hpar : e % 2 = 1
        · simpa [hpar] using Nat.mod_modEq (r * b) m
        · have hz : e % 2 = 0 := by omega
          simp only [hpar, if_neg, hz, pow_zero, mul_one, ite_false]
          exact Nat.ModEq.refl r
      have h2 : (b * b % m) ^ (e / 2) ≡ (b * b) ^ (e / 2) [MOD m] :=
        (Nat.mod_modEq (b * b) m).pow _
      have h3 := h1.mul h2
      have h4 : r * b ^ (e % 2) * (b * b) ^ (e / 2) = r * b ^ e := by
        have hb2 : (b * b) ^ (e / 2) = b ^ (2 * (e / 2)) := by
          rw [← pow_two, ← pow_mul]
        rw [hb2, mul_assoc, ← pow_add]
        have : e % 2 + 2 * (e / 2) = e := by omega
        rw [this]
      rw [h4] at h3
      exact h3

theorem fme_correct (b e m : Nat) (hm : 1 ≤ m) :
    fast_modular_exponentiation b e m = b ^ e % m := by
  unfold fast_modular_exponentiation
  by_cases hm1 : m = 1
  · simp [hm1, Nat.mod_one]
  · have hm2 : 2 ≤ m := by omega
    rw [if_neg hm1, fmeLoop_eq m hm2 e e 1 (b % m) le_rfl (by omega)]
    rw [one_mul, ← Nat.pow_mod]

theorem fme_lt (b e m : Nat) (hm : 1 ≤ m) :
    fast_modular_exponentiation b e m < m := by
  rw [fme_correct b e m hm]
  exact Nat.mod_lt _ (by omega)

/-! ## Lemmas: Python floor-mod, `gcd`, `extended_euclidean` -/

theorem fmod_natAbs_lt (a b : Int) (hb : b ≠ 0) :
    (Int.fmod a b).natAbs < b.natAbs := by
  rcases b with nb | nb
  · have hnb : 0 < (Int.ofNat nb) := by
      rcases Nat.eq_zero_or_pos nb with h | h
      · exact absurd (by simp [h]) hb
      · show (0 : Int) < (nb : Int)
        exact_mod_cast h
    have h1 := Int.fmod_nonneg' a hnb
    have h2 := Int.fmod_lt_of_pos a hnb
    omega
  · rcases a with ma | ma
    · rcases ma with _ | ma
      · simp [Int.fmod]
      · show (Int.subNatNat (ma % (nb + 1)) nb).natAbs < nb + 1
        rw [Int.subNatNat_eq_coe]
        have := Nat.mod_lt ma (show 0 < nb + 1 by omega)
        omega
    · show (- Int.ofNat ((ma + 1) % (nb + 1))).natAbs < nb + 1
      rw [Int.natAbs_neg]
      show (ma + 1) % (nb + 1) < nb + 1
      exact Nat.mod_lt (ma + 1) (show 0 < nb + 1 by omega)

theorem gcdLoop_fuel :
    ∀ fuel fuel' (a b : Int), b.natAbs < fuel → b.natAbs < fuel' →
      gcdLoop fuel a b = gcdLoop fuel' a b := by
  intro fuel
  induction fuel with
  | zero => intro fuel' a b h _; omega
  | succ fuel ih =>
    intro fuel' a b h h'
    match fuel' with
    | 0 => omega
    | fuel' + 1 =>
      show (if b = 0 then a else gcdLoop fuel b (Int.fmod a b)) =
        (if b = 0 then a else gcdLoop fuel' b (Int.fmod a b))
      by_cases hb : b = 0
      · simp [hb]
      · have hlt := fmod_natAbs_lt a b hb
        simp only [hb, if_neg, ite_false]
        exact ih fuel' b (Int.fmod a b) (by omega) (by omega)

theorem gcd_zero_right_eq (a : Int) : gcd a 0 = a := rfl

theorem gcd_rec_eq (a b : Int) (hb : b ≠ 0) :
    gcd a b = gcd b (Int.fmod a b) := by
  have hlt := fmod_natAbs_lt a b hb
  show gcdLoop (b.natAbs + 1) a b = gcdLoop ((Int.fmod a b).natAbs + 1) b (Int.fmod a b)
  have h1 : gcdLoop (b.natAbs + 1) a b = gcdLoop b.natAbs b (Int.fmod a b) := by
    show (if b = 0 then a else gcdLoop b.natAbs b (Int.fmod a b)) = _
    simp [hb]
  rw [h1]
  exact gcdLoop_fuel b.natAbs ((Int.fmod a b).natAbs + 1) b (Int.fmod a b)
    (by omega) (by omega)

theorem gcd_eq_zero_iff_both (a b : Int) : gcd a b = 0 ↔ a = 0 ∧ b = 0 := by
  constructor
  · have haux : ∀ n (a b : Int), b.natAbs ≤ n → gcd a b = 0 → a = 0 ∧ b = 0 := by
      intro n
      induction n with
      | zero =>
        intro a b hn h
        have hb : b = 0 := by omega
        subst hb
        rw [gcd_zero_right_eq] at h
        exact ⟨h, rfl⟩
      | succ n ih =>
        intro a b hn h
        by_cases hb : b = 0
        · subst hb
          rw [gcd_zero_right_eq] at h
          exact ⟨h, rfl⟩
        · rw [gcd_rec_eq a b hb] at h
          have hlt := fmod_natAbs_lt a b hb
          have := ih b (Int.fmod a b) (by omega) h
          exact absurd this.1 hb
    exact haux b.natAbs a b le_rfl
  · rintro ⟨ha, hb⟩
    subst ha; subst hb
    rfl

/-- Euclid step for the mathematical gcd over `Int`:
`gcd b (a % b) = gcd a b` (Euclidean mod). -/
theorem gcd_emod_eq (a b : Int) : Int.gcd b (a % b) = Int.gcd a b := by
  apply Nat.dvd_antisymm
  · have hdb : (↑(Int.gcd b (a % b)) : Int) ∣ b := Int.gcd_dvd_left
    have hdm : (↑(Int.gcd b (a % b)) : Int) ∣ a % b := Int.gcd_dvd_right
    have h1 : (↑(Int.gcd b (a % b)) : Int) ∣ a := by
      have hsum : (↑(Int.gcd b (a % b)) : Int) ∣ b * (a / b) + a % b :=
        dvd_add (hdb.mul_right _) hdm
      rwa [Int.ediv_add_emod a b] at hsum
    exact Int.natCast_dvd_natCast.mp (Int.dvd_gcd h1 hdb)
  · have hda : (↑(Int.gcd a b) : Int) ∣ a := Int.gcd_dvd_left
    have hdb : (↑(Int.gcd a b) : Int) ∣ b := Int.gcd_dvd_right
    have h2 : (↑(Int.gcd a b) : Int) ∣ a % b := by
      have hm : a % b = a - b * (a / b) := by
        have := Int.ediv_add_emod a b
        omega
      rw [hm]
      exact dvd_sub hda (hdb.mul_right _)
    exact Int.natCast_dvd_natCast.mp (Int.dvd_gcd hdb h2)

/-- Correctness of `eeLoop` on the inputs `modular_inverse` can produce:
non-negative second argument (and a non-negative first argument when the
second is zero).  Gives the Bezout identity and identifies the first
component with the mathematical gcd. -/
theorem eeLoop_spec :
    ∀ n fuel (a b : Int), b.natAbs ≤ n → n < fuel → 0 ≤ b → (b = 0 → 0 ≤ a) →
      a * (eeLoop fuel a b).2.1 + b * (eeLoop fuel a b).2.2 = (eeLoop fuel a b).1 ∧
      (eeLoop fuel a b).1 = (Int.gcd a b : Int) := by
  intro n
  induction n with
  | zero =>
    intro fuel a b hn hf hb0 hbz
    have hb : b = 0 := by omega
    subst hb
    cases fuel with
    | zero => exact absurd hf (Nat.not_lt_zero 0)
    | succ fuel =>
      show a * 1 + 0 * 0 = a ∧ (a : Int) = (Int.gcd a 0 : Int)
      refine ⟨by ring, ?_⟩
      rw [Int.gcd_zero_right, Int.natAbs_of_nonneg (hbz rfl)]
  | succ n ih =>
    intro fuel a b hn hf hb0 hbz
    cases fuel with
    | zero => exact absurd hf (Nat.not_lt_zero _)
    | succ fuel =>
      by_cases hb : b = 0
      · subst hb
        show a * 1 + 0 * 0 = a ∧ (a : Int) = (Int.gcd a 0 : Int)
        refine ⟨by ring, ?_⟩
        rw [Int.gcd_zero_right, Int.natAbs_of_nonneg (hbz rfl)]
      · have hbpos : 0 < b := lt_of_le_of_ne hb0 (Ne.symm hb)
        have hmod0 : 0 ≤ Int.fmod a b := Int.fmod_nonneg' a hbpos
        have hlt := fmod_natAbs_lt a b hb
        have hrec := ih fuel b (Int.fmod a b) (by omega) (by omega)
          hmod0 (fun _ => le_of_lt hbpos)
        set E := eeLoop fuel b (Int.fmod a b) with hE
        have hunfold : eeLoop (fuel + 1) a b =
            (E.1, E.2.2, E.2.1 - Int.fdiv a b * E.2.2) := by
          show (if b = 0 then (a, 1, 0) else _) = _
          simp [hb, hE]
        rw [hunfold]
        obtain ⟨hbez, hgcd⟩ := hrec
        constructor
        · have hdef : Int.fmod a b = a - b * Int.fdiv a b := Int.fmod_def a b
          show a * E.2.2 + b * (E.2.1 - Int.fdiv a b * E.2.2) = E.1
          rw [← hbez, hdef]
          ring
        · show E.1 = (Int.gcd a b : Int)
          rw [hgcd]
          congr 1
          rw [Int.fmod_eq_emod a hb0]
          exact gcd_emod_eq a b

/-- Behaviour of `extended_euclidean` on the arguments `modular_inverse` passes it. -/
theorem extended_euclidean_spec (a m : Int) (hm : 1 ≤ m) :
    a * (extended_euclidean a m).2.1 + m * (extended_euclidean a m).2.2 =
      (extended_euclidean a m).1 ∧
    (extended_euclidean a m).1 = (Int.gcd a m : Int) :=
  eeLoop_spec m.natAbs (m.natAbs + 1) a m le_rfl (by omega) (by omega)
    (fun h => by omega)

/-- Behaviour of `modular_inverse` for positive modulus. -/
theorem modular_inverse_spec (a m : Int) (hm : 1 ≤ m) :
    (Int.gcd a m ≠ 1 → modular_inverse a m = .error "Modular inverse does not exist") ∧
    (Int.gcd a m = 1 →
      modular_inverse a m = .ok ((extended_euclidean a m).2.1 % m) ∧
      0 ≤ (extended_euclidean a m).2.1 % m ∧
      (extended_euclidean a m).2.1 % m < m ∧
      a * ((extended_euclidean a m).2.1 % m) % m = 1 % m) := by
  obtain ⟨hbez, hgcd⟩ := extended_euclidean_spec a m hm
  have hm0 : m ≠ 0 := by omega
  have hmpos : 0 < m := by omega
  set r := extended_euclidean a m with hr
  constructor
  · intro hne
    have : r.1 ≠ 1 := by
      rw [hgcd]
      intro h
      exact hne (by exact_mod_cast h)
    simp [modular_inverse, ← hr, this]
  · intro hone
    have h1 : r.1 = 1 := by rw [hgcd]; exact_mod_cast hone
    have hfm : ∀ c : Int, Int.fmod c m = c % m := fun c => Int.fmod_eq_emod c (by omega)
    have hz : Int.fmod (Int.fmod r.2.1 m + m) m = r.2.1 % m := by
      rw [hfm, hfm]
      have : (r.2.1 % m + m) % m = (r.2.1 % m + m * 1) % m := by ring_nf
      rw [this, Int.add_mul_emod_self_left, Int.emod_emod_of_dvd _ dvd_rfl]
    have hok : modular_inverse a m = .ok (r.2.1 % m) := by
      simp only [modular_inverse, ← hr, h1, ne_eq, not_true_eq_false, ite_false,
        if_neg, hz]
    refine ⟨hok, Int.emod_nonneg _ hm0, Int.emod_lt_of_pos _ hmpos, ?_⟩
    have hmul : a * (r.2.1 % m) % m = a * r.2.1 % m := by
      conv_rhs => rw [Int.mul_emod]
      rw [Int.mul_emod, Int.emod_emod_of_dvd _ dvd_rfl]
    rw [hmul]
    have hax : a * r.2.1 = 1 + m * (- r.2.2) := by
      have := hbez
      rw [h1] at this
      linarith
    rw [hax, Int.add_mul_emod_self_left]

/-- C8: for every integer `a` and modulus `m ≥ 1`, `extended_euclidean a m`
returns `(g, x, y)` with `a*x + m*y = g` and `g = gcd a m`;
`modular_inverse a m` fails exactly when `gcd a m ≠ 1`, and on success
returns `z` with `0 ≤ z < m` and `a*z ≡ 1 (mod m)`. -/
theorem C8_extended_euclidean_modular_inverse (a m : Int) (hm : 1 ≤ m) :
    (a * (extended_euclidean a m).2.1 + m * (extended_euclidean a m).2.2 =
      (extended_euclidean a m).1 ∧
     (extended_euclidean a m).1 = (Int.gcd a m : Int)) ∧
    ((∃ msg, modular_inverse a m = .error msg) ↔ Int.gcd a m ≠ 1) ∧
    (∀ z, modular_inverse a m = .ok z → 0 ≤ z ∧ z < m ∧ a * z % m = 1 % m) := by
  obtain ⟨herr, hok⟩ := modular_inverse_spec a m hm
  refine ⟨extended_euclidean_spec a m hm, ?_, ?_⟩
  · constructor
    · rintro ⟨msg, hmsg⟩ hone
      obtain ⟨hok', _, _, _⟩ := hok hone
      rw [hok'] at hmsg
      exact Except.noConfusion hmsg
    · intro hne
      exact ⟨_, herr hne⟩
  · intro z hz
    by_cases hone : Int.gcd a m = 1
    · obtain ⟨hok', hnn, hlt, hmod⟩ := hok hone
      rw [hok'] at hz
      have : (extended_euclidean a m).2.1 % m = z := by
        exact Except.ok.inj hz
      rw [← this]
      exact ⟨hnn, hlt, hmod⟩
    · rw [herr hone] at hz
      exact Except.noConfusion hz

/-- Witness for C8 at `a = 3`, `m = 40`: the inverse is `27`. -/
theorem C8_witness :
    (1 : Int) ≤ 40 ∧
    (extended_euclidean 3 40).1 = (Int.gcd 3 40 : Int) ∧
    modular_inverse 3 40 = .ok 27 ∧
    (0 : Int) ≤ 27 ∧ (27 : Int) < 40 ∧ (3 * 27) % (40 : Int) = 1 % 40 := by
  have h := C8_extended_euclidean_modular_inverse 3 40 (by norm_num)
  have hev : modular_inverse 3 40 = .ok 27 := by rfl
  have h27 := h.2.2 27 hev
  exact ⟨by norm_num, h.1.2, hev, h27.1, h27.2.1, h27.2.2⟩

/-- C9: `lcm 0 0` is the one failing pair (unguarded division by
`gcd 0 0 = 0`); every other pair returns `abs(a*b) // gcd(a, b)` with the
code's own (sign-carrying) gcd. -/
theorem C9_lcm_zero_zero_undefined :
    lcm 0 0 = none ∧ gcd 0 0 = 0 ∧
    ∀ a b : Int, ¬(a = 0 ∧ b = 0) →
      lcm a b = some (Int.fdiv |a * b| (gcd a b)) := by
  refine ⟨rfl, rfl, ?_⟩
  intro a b hne
  have hg : gcd a b ≠ 0 := fun h => hne ((gcd_eq_zero_iff_both a b).mp h)
  simp [lcm, hg]

/-- Witness for C9 at `(a, b) = (4, -6)` (where the code's gcd is `-2`). -/
theorem C9_witness :
    ¬((4 : Int) = 0 ∧ (-6 : Int) = 0) ∧
    lcm 4 (-6) = some (Int.fdiv |(4 : Int) * (-6)| (gcd 4 (-6))) ∧
    gcd 4 (-6) = -2 ∧ lcm 4 (-6) = some (-12) := by
  refine ⟨by decide, C9_lcm_zero_zero_undefined.2.2 4 (-6) (by decide), by decide, by decide⟩

/-! ## Lemmas: RSA correctness -/

/-- Fermat consequence: for a prime `p` and `k ≡ 1 (mod p-1)`, `k ≥ 1`,
exponentiation by `k` fixes every residue mod `p`. -/
theorem pow_modEq_prime (p : Nat) (hp : p.Prime) (k : Nat) (hk : 1 ≤ k)
    (hdvd : (p - 1) ∣ (k - 1)) (m : Nat) : m ^ k ≡ m [MOD p] := by
  haveI : Fact p.Prime := ⟨hp⟩
  rw [← ZMod.natCast_eq_natCast_iff]
  push_cast
  obtain ⟨t, ht⟩ := hdvd
  have hk' : k = (p - 1) * t + 1 := by
    have hp2 := hp.two_le
    omega
  by_cases hm : (m : ZMod p) = 0
  · rw [hm, zero_pow (by omega : k ≠ 0)]
  · rw [hk', pow_add, pow_mul, pow_one, ZMod.pow_card_sub_one_eq_one hm, one_pow,
      one_mul]

/-- RSA core identity: for distinct primes `p, q` and any exponent
`k ≡ 1 (mod (p-1)(q-1))`, exponentiation by `k` fixes every residue
mod `p*q`. -/
theorem rsa_pow_identity (p q : Nat) (hp : p.Prime) (hq : q.Prime) (hpq : p ≠ q)
    (k : Nat) (hk : k ≡ 1 [MOD (p - 1) * (q - 1)]) (m : Nat) :
    m ^ k ≡ m [MOD p * q] := by
  have hp2 := hp.two_le
  have hq2 := hq.two_le
  have hphi2 : 2 ≤ (p - 1) * (q - 1) := by
    rcases Nat.lt_or_ge p q with h | h
    · have : 3 ≤ q := by
        rcases Nat.lt_or_ge q 3 with h3 | h3
        · interval_cases q <;> omega
        · omega
      calc 2 = 1 * 2 := by omega
        _ ≤ (p - 1) * (q - 1) := Nat.mul_le_mul (by omega) (by omega)
    · have hne : q < p := lt_of_le_of_ne h (fun hh => hpq hh.symm)
      have : 3 ≤ p := by omega
      calc 2 = 2 * 1 := by omega
        _ ≤ (p - 1) * (q - 1) := Nat.mul_le_mul (by omega) (by omega)
  have hk1 : 1 ≤ k := by
    rcases Nat.eq_zero_or_pos k with h0 | h1
    · exfalso
      subst h0
      have : 0 % ((p - 1) * (q - 1)) = 1 % ((p - 1) * (q - 1)) := hk
      rw [Nat.zero_mod, Nat.mod_eq_of_lt (by omega)] at this
      omega
    · exact h1
  have hdvd : (p - 1) * (q - 1) ∣ k - 1 :=
    (Nat.modEq_iff_dvd' hk1).mp hk.symm
  have hmp : m ^ k ≡ m [MOD p] :=
    pow_modEq_prime p hp k hk1 (dvd_trans (Dvd.intro _ rfl) hdvd) m
  have hmq : m ^ k ≡ m [MOD q] :=
    pow_modEq_prime q hq k hk1 (dvd_trans (Dvd.intro_left _ rfl) hdvd) m
  have hco : Nat.Coprime p q := (Nat.coprime_primes hp hq).mpr hpq
  exact (Nat.modEq_and_modEq_iff_modEq_mul hco).mp ⟨hmp, hmq⟩

/-- From a successful `modular_inverse e phi = ok d` extract
`e*d ≡ 1 (mod phi)` over `Nat`. -/
theorem modular_inverse_nat_modEq (e d phi : Nat) (hphi : 1 ≤ phi)
    (hd : modular_inverse (e : Int) (phi : Int) = .ok (d : Int)) :
    e * d ≡ 1 [MOD phi] := by
  have hm : (1 : Int) ≤ (phi : Int) := by exact_mod_cast hphi
  by_cases hone : Int.gcd (e : Int) (phi : Int) = 1
  · obtain ⟨hok', _, _, hmod⟩ := (modular_inverse_spec _ _ hm).2 hone
    rw [hok'] at hd
    have hzd : (extended_euclidean (e : Int) (phi : Int)).2.1 % (phi : Int) = (d : Int) :=
      Except.ok.inj hd
    rw [hzd] at hmod
    show (e * d) % phi = 1 % phi
    exact_mod_cast hmod
  · have herr := (modular_inverse_spec _ _ hm).1 hone
    rw [herr] at hd
    exact Except.noConfusion hd

/-- The two-sided modexp inversion at the heart of C1. -/
theorem fme_roundtrip (p q e d : Nat) (hp : p.Prime) (hq : q.Prime) (hpq : p ≠ q)
    (hmod : e * d ≡ 1 [MOD (p - 1) * (q - 1)]) :
    ∀ x, x < p * q →
      fast_modular_exponentiation (fast_modular_exponentiation x e (p * q)) d (p * q) = x := by
  have hp2 := hp.two_le
  have hq2 := hq.two_le
  have hn1 : 1 ≤ p * q := Nat.one_le_iff_ne_zero.mpr (Nat.mul_ne_zero (by omega) (by omega))
  intro x hx
  rw [fme_correct _ _ _ hn1, fme_correct _ _ _ hn1, ← Nat.pow_mod, ← pow_mul]
  have hid := rsa_pow_identity p q hp hq hpq (e * d) hmod x
  have : x ^ (e * d) % (p * q) = x % (p * q) := hid
  rw [this, Nat.mod_eq_of_lt hx]

/-- C1: for a key pair built the way `generate_key_pair` builds it
(`n = p*q` with `p ≠ q` prime, `d = modular_inverse(e, (p-1)(q-1))`),
`decrypt_number ∘ encrypt_number` is the identity on `[0, n)` and so is
`encrypt_number ∘ decrypt_number`. -/
theorem C1_rsa_number_roundtrip (p q e d : Nat) (hp : p.Prime) (hq : q.Prime)
    (hpq : p ≠ q)
    (hd : modular_inverse (e : Int) ((((p - 1) * (q - 1) : Nat)) : Int) = .ok ((d : Nat) : Int)) :
    (∀ m, m < p * q →
      (encrypt_number (some ⟨(e, p * q), some d, p * q⟩) m).bind
        (decrypt_number (some ⟨(e, p * q), some d, p * q⟩)) = .ok m) ∧
    (∀ c, c < p * q →
      (decrypt_number (some ⟨(e, p * q), some d, p * q⟩) c).bind
        (encrypt_number (some ⟨(e, p * q), some d, p * q⟩)) = .ok c) := by
  have hp2 := hp.two_le
  have hq2 := hq.two_le
  have hn1 : 1 ≤ p * q := Nat.one_le_iff_ne_zero.mpr (Nat.mul_ne_zero (by omega) (by omega))
  have hphi1 : 1 ≤ (p - 1) * (q - 1) := by
    have h1 : 1 ≤ p - 1 := by omega
    have h2 : 1 ≤ q - 1 := by omega
    calc 1 = 1 * 1 := rfl
      _ ≤ (p - 1) * (q - 1) := Nat.mul_le_mul h1 h2
  have hmod : e * d ≡ 1 [MOD (p - 1) * (q - 1)] :=
    modular_inverse_nat_modEq e d _ hphi1 hd
  have hmod' : d * e ≡ 1 [MOD (p - 1) * (q - 1)] := by
    rwa [Nat.mul_comm d e]
  constructor
  · intro m hm
    simp only [encrypt_number, decrypt_number]
    rw [if_neg (by omega : ¬ m ≥ p * q)]
    show Except.ok _ = _
    rw [fme_roundtrip p q e d hp hq hpq hmod m hm]
  · intro c hc
    simp only [encrypt_number, decrypt_number]
    have hlt : fast_modular_exponentiation c d (p * q) < p * q := fme_lt _ _ _ hn1
    show Except.bind (Except.ok _) _ = _
    show (if fast_modular_exponentiation c d (p * q) ≥ p * q then _ else _) = _
    rw [if_neg (by omega : ¬ fast_modular_exponentiation c d (p * q) ≥ p * q)]
    rw [fme_roundtrip p q d e hp hq hpq hmod' c hc]

/-- Witness for C1 with `p = 5`, `q = 11`, `e = 3`, `d = 27`, messages 42 and 2. -/
theorem C1_witness :
    Nat.Prime 5 ∧ Nat.Prime 11 ∧ 5 ≠ 11 ∧
    modular_inverse ((3 : Nat) : Int) ((((5 - 1) * (11 - 1) : Nat)) : Int) =
      .ok (((27 : Nat) : Nat) : Int) ∧
    (encrypt_number (some ⟨(3, 5 * 11), some 27, 5 * 11⟩) 42).bind
      (decrypt_number (some ⟨(3, 5 * 11), some 27, 5 * 11⟩)) = .ok 42 ∧
    (decrypt_number (some ⟨(3, 5 * 11), some 27, 5 * 11⟩) 2).bind
      (encrypt_number (some ⟨(3, 5 * 11), some 27, 5 * 11⟩)) = .ok 2 := by
  have h := C1_rsa_number_roundtrip 5 11 3 27 (by norm_num) (by norm_num)
    (by omega) (by rfl)
  exact ⟨by norm_num, by norm_num, by omega, by rfl, h.1 42 (by omega), h.2 2 (by omega)⟩

/-! ## Lemmas: `bit_length` and byte conversion -/

theorem bitLenLoop_zero (fuel : Nat) : bitLenLoop fuel 0 = 0 := by
  cases fuel <;> rfl

theorem bitLenLoop_bounds :
    ∀ fuel n, 1 ≤ n → n ≤ fuel →
      2 ^ (bitLenLoop fuel n - 1) ≤ n ∧ n < 2 ^ (bitLenLoop fuel n) ∧
        1 ≤ bitLenLoop fuel n := by
  intro fuel
  induction fuel with
  | zero => intro n h1 h2; omega
  | succ fuel ih =>
    intro n h1 h2
    have hunfold : bitLenLoop (fuel + 1) n = bitLenLoop fuel (n / 2) + 1 := by
      show (if n = 0 then 0 else bitLenLoop fuel (n / 2) + 1) = _
      rw [if_neg (by omega)]
    rw [hunfold]
    by_cases hn1 : n = 1
    · subst hn1
      simp [bitLenLoop_zero]
    · have hn2 : 2 ≤ n := by omega
      have hhalf1 : 1 ≤ n / 2 := by omega
      have hhalf2 : n / 2 ≤ fuel := by omega
      obtain ⟨hlow, hhigh, hpos⟩ := ih (n / 2) hhalf1 hhalf2
      set L := bitLenLoop fuel (n / 2) with hL
      refine ⟨?_, ?_, by omega⟩
      · have : 2 ^ (L + 1 - 1) = 2 * 2 ^ (L - 1) := by
          rw [Nat.add_sub_cancel]
          conv_lhs => rw [show L = (L - 1) + 1 by omega]
          rw [pow_succ]
          ring
        rw [this]
        omega
      · have : 2 ^ (L + 1) = 2 * 2 ^ L := by rw [pow_succ]; ring
        rw [this]
        omega

theorem bit_length_bounds (n : Nat) (h : 1 ≤ n) :
    2 ^ (bit_length n - 1) ≤ n ∧ n < 2 ^ (bit_length n) ∧ 1 ≤ bit_length n :=
  bitLenLoop_bounds n n h le_rfl

/-- Peeling one leading byte off `bytes_to_int`. -/
theorem bytes_to_int_acc (bs : List Nat) :
    ∀ acc, bs.foldl (fun a b => a * 256 + b) acc =
      acc * 256 ^ bs.length + bytes_to_int bs := by
  induction bs with
  | nil => intro acc; simp [bytes_to_int]
  | cons b bs ih =>
    intro acc
    show bs.foldl _ (acc * 256 + b) = _
    rw [ih (acc * 256 + b)]
    have hb : bytes_to_int (b :: bs) = b * 256 ^ bs.length + bytes_to_int bs := by
      show bs.foldl _ (0 * 256 + b) = _
      rw [ih (0 * 256 + b)]
      ring_nf
    rw [hb]
    simp [List.length_cons]
    ring

theorem bytes_to_int_cons (b : Nat) (bs : List Nat) :
    bytes_to_int (b :: bs) = b * 256 ^ bs.length + bytes_to_int bs := by
  show bs.foldl _ (0 * 256 + b) = _
  rw [bytes_to_int_acc bs (0 * 256 + b)]
  ring_nf

theorem bytes_to_int_lt (bs : List Nat) (h : ∀ b ∈ bs, b < 256) :
    bytes_to_int bs < 256 ^ bs.length := by
  induction bs with
  | nil => simp [bytes_to_int]
  | cons b bs ih =>
    rw [bytes_to_int_cons]
    have hb : b < 256 := h b (List.mem_cons_self b bs)
    have hbs := ih (fun x hx => h x (List.mem_cons_of_mem b hx))
    have : 256 ^ (b :: bs).length = 256 * 256 ^ bs.length := by
      rw [List.length_cons, pow_succ]
      ring
    rw [this]
    have hb' : b * 256 ^ bs.length ≤ 255 * 256 ^ bs.length :=
      Nat.mul_le_mul_right _ (by omega)
    have h255 : 255 * 256 ^ bs.length + 256 ^ bs.length = 256 * 256 ^ bs.length := by
      ring
    omega

theorem bytes_to_int_append_last (bs : List Nat) (c : Nat) :
    bytes_to_int (bs ++ [c]) = bytes_to_int bs * 256 + c := by
  show (bs ++ [c]).foldl _ 0 = _
  rw [List.foldl_append]
  rfl

theorem intToBytesAux_length (L x : Nat) : (intToBytesAux L x).length = L := by
  induction L generalizing x with
  | zero => rfl
  | succ L ih =>
    show (intToBytesAux L (x / 256) ++ [x % 256]).length = L + 1
    rw [List.length_append, ih]
    rfl

theorem intToBytesAux_mem_lt (L x : Nat) : ∀ b ∈ intToBytesAux L x, b < 256 := by
  induction L generalizing x with
  | zero => intro b hb; exact absurd hb (List.not_mem_nil b)
  | succ L ih =>
    intro b hb
    rcases List.mem_append.mp hb with h | h
    · exact ih (x / 256) b h
    · rcases List.mem_singleton.mp h with rfl
      exact Nat.mod_lt _ (by omega)

theorem bytes_to_int_intToBytesAux (L x : Nat) :
    bytes_to_int (intToBytesAux L x) = x % 256 ^ L := by
  induction L generalizing x with
  | zero => simp [intToBytesAux, bytes_to_int, Nat.mod_one]
  | succ L ih =>
    show bytes_to_int (intToBytesAux L (x / 256) ++ [x % 256]) = _
    rw [bytes_to_int_append_last, ih]
    have h1 : 256 ^ (L + 1) = 256 * 256 ^ L := by rw [pow_succ]; ring
    rw [h1, Nat.mod_mul]
    ring

theorem intToBytesAux_bytes_to_int (bs : List Nat) (h : ∀ b ∈ bs, b < 256) :
    intToBytesAux bs.length (bytes_to_int bs) = bs := by
  induction bs using List.list_reverse_induction with
  | base => rfl
  | ind bs c ih =>
    have hlen : (bs ++ [c]).length = bs.length + 1 := by simp
    rw [hlen]
    show intToBytesAux bs.length (bytes_to_int (bs ++ [c]) / 256) ++
      [bytes_to_int (bs ++ [c]) % 256] = bs ++ [c]
    have hc : c < 256 := h c (by simp)
    rw [bytes_to_int_append_last]
    have hdiv : (bytes_to_int bs * 256 + c) / 256 = bytes_to_int bs := by
      rw [show bytes_to_int bs * 256 + c = 256 * bytes_to_int bs + c by ring,
        Nat.mul_add_div (by omega)]
      omega
    have hmod : (bytes_to_int bs * 256 + c) % 256 = c := by
      rw [show bytes_to_int bs * 256 + c = 256 * bytes_to_int bs + c by ring,
        Nat.mul_add_mod, Nat.mod_eq_of_lt hc]
    rw [hdiv, hmod, ih (fun b hb => h b (by simp [hb]))]

/-! ## Lemmas: padding -/

theorem take_append_le {α : Type} (xs ys : List α) (n : Nat) (h : n ≤ xs.length) :
    (xs ++ ys).take n = xs.take n := by
  induction xs generalizing n with
  | nil =>
    have : n = 0 := by simpa using h
    subst this
    simp
  | cons x xs ih =>
    cases n with
    | zero => simp
    | succ n =>
      show x :: (xs ++ ys).take n = x :: xs.take n
      rw [ih n (by simpa using h)]

theorem drop_append_le {α : Type} (xs ys : List α) (n : Nat) (h : n ≤ xs.length) :
    (xs ++ ys).drop n = xs.drop n ++ ys := by
  induction xs generalizing n with
  | nil =>
    have : n = 0 := by simpa using h
    subst this
    simp
  | cons x xs ih =>
    cases n with
    | zero => simp
    | succ n =>
      show (xs ++ ys).drop n = xs.drop n ++ ys
      exact ih n (by simpa using h)

theorem findZero_append (xs ys : List Nat) (h : ∀ b ∈ xs, b ≠ 0) :
    findZero (xs ++ 0 :: ys) = some xs.length := by
  induction xs with
  | nil => simp [findZero]
  | cons x xs ih =>
    have hx : x ≠ 0 := h x (List.mem_cons_self x xs)
    show (if x = 0 then some 0 else (findZero (xs ++ 0 :: ys)).map (· + 1)) = _
    rw [if_neg hx, ih (fun b hb => h b (List.mem_cons_of_mem x hb))]
    rfl

theorem findZero_set_zero (xs ys : List Nat) (j : Nat) (hj : j < xs.length)
    (h : ∀ b ∈ xs, b ≠ 0) :
    findZero (xs.set j 0 ++ ys) = some j := by
  induction xs generalizing j with
  | nil => simp at hj
  | cons x xs ih =>
    cases j with
    | zero =>
      show findZero (0 :: (xs ++ ys)) = some 0
      simp [findZero]
    | succ j =>
      have hx : x ≠ 0 := h x (List.mem_cons_self x xs)
      show findZero (x :: (xs.set j 0 ++ ys)) = some (j + 1)
      show (if x = 0 then some 0 else (findZero (xs.set j 0 ++ ys)).map (· + 1)) = _
      rw [if_neg hx, ih j (by simpa using hj) (fun b hb => h b (List.mem_cons_of_mem x hb))]
      rfl

/-- In encryption mode `apply_pkcs1_padding` succeeds and produces the
documented layout. -/
theorem apply_enc_eq (msg ps : List Nat) (target : Nat)
    (hlen : msg.length + 11 ≤ target)
    (hps : ps.length = target - msg.length - 3) :
    apply_pkcs1_padding msg target "encryption" ps =
      .ok (0 :: 2 :: (ps ++ 0 :: msg)) := by
  unfold apply_pkcs1_padding
  rw [if_neg (by omega), if_neg (by omega), if_pos rfl]
  have hplen : (0 :: 2 :: (ps ++ 0 :: msg)).length = target := by
    simp [hps]
    omega
  rw [if_neg (by omega)]

/-- In signature mode `apply_pkcs1_padding` succeeds and produces the
documented layout. -/
theorem apply_sig_eq (msg ps : List Nat) (target : Nat)
    (hlen : msg.length + 11 ≤ target) :
    apply_pkcs1_padding msg target "signature" ps =
      .ok (0 :: 1 :: (List.replicate (target - msg.length - 3) 255 ++ 0 :: msg)) := by
  unfold apply_pkcs1_padding
  rw [if_neg (by omega), if_neg (by omega),
    if_neg (by decide), if_pos rfl]
  have hplen : (0 :: 1 :: (List.replicate (target - msg.length - 3) 255 ++ 0 :: msg)).length
      = target := by
    simp
    omega
  rw [if_neg (by omega)]

/-- On the encryption layout `remove_pkcs1_padding` recovers the message. -/
theorem remove_enc_eq (msg ps : List Nat) (hps8 : 8 ≤ ps.length)
    (hpsnz : ∀ b ∈ ps, b ≠ 0) (hmsg : 1 ≤ msg.length) :
    remove_pkcs1_padding (0 :: 2 :: (ps ++ 0 :: msg)) "encryption" = .ok msg := by
  have hfz : findZero (ps ++ 0 :: msg) = some ps.length := findZero_append ps msg hpsnz
  have htake : (ps ++ 0 :: msg).take ps.length = ps := List.take_left' rfl
  have hdrop : (ps ++ 0 :: msg).drop (ps.length + 1) = msg := by
    have hsplit : ps ++ 0 :: msg = (ps ++ [0]) ++ msg := by simp
    rw [hsplit]
    exact List.drop_left' (by simp)
  have hlen : ¬ ((0 :: 2 :: (ps ++ 0 :: msg)).length < 11) := by
    simp only [List.length_cons, List.length_append]
    omega
  unfold remove_pkcs1_padding
  rw [if_neg hlen]
  show (if (0 : Nat) ≠ 0 then _ else _) = _
  rw [if_neg (by omega)]
  show (if (2 : Nat) ≠ (if ("encryption" : String) = "encryption" then 2 else 1)
    then _ else _) = _
  rw [if_pos rfl]
  rw [if_neg (by omega)]
  rw [hfz]
  show (if ps.length < 8 then _ else _) = _
  rw [if_neg (by omega)]
  rw [htake]
  have hany : ¬ (("encryption" : String) = "encryption" ∧ ps.any (fun b => b = 0) = true) := by
    rintro ⟨-, hx⟩
    rw [List.any_eq_true] at hx
    obtain ⟨x, hmem, hx0⟩ := hx
    exact hpsnz x hmem (by simpa using hx0)
  rw [if_neg hany]
  rw [if_neg (by rintro ⟨h, -⟩; simp at h)]
  rw [hdrop]
  rw [if_neg (by omega)]

/-- On the signature layout `remove_pkcs1_padding` recovers the message. -/
theorem remove_sig_eq (msg : List Nat) (psLen : Nat) (hps8 : 8 ≤ psLen)
    (hmsg : 1 ≤ msg.length) :
    remove_pkcs1_padding (0 :: 1 :: (List.replicate psLen 255 ++ 0 :: msg))
      "signature" = .ok msg := by
  have hnz : ∀ b ∈ List.replicate psLen 255, b ≠ (0 : Nat) := by
    intro b hb
    rcases (List.mem_replicate.mp hb) with ⟨-, rfl⟩
    omega
  have hfz : findZero (List.replicate psLen 255 ++ 0 :: msg) = some psLen := by
    have := findZero_append (List.replicate psLen 255) msg hnz
    simpa using this
  have htake : (List.replicate psLen 255 ++ 0 :: msg).take psLen =
      List.replicate psLen 255 := List.take_left' (by simp)
  have hdrop : (List.replicate psLen 255 ++ 0 :: msg).drop (psLen + 1) = msg := by
    have hsplit : List.replicate psLen 255 ++ 0 :: msg =
        (List.replicate psLen 255 ++ [0]) ++ msg := by simp
    rw [hsplit]
    exact List.drop_left' (by simp)
  have hlen : ¬ ((0 :: 1 :: (List.replicate psLen 255 ++ 0 :: msg)).length < 11) := by
    simp only [List.length_cons, List.length_append, List.length_replicate]
    omega
  unfold remove_pkcs1_padding
  rw [if_neg hlen]
  show (if (0 : Nat) ≠ 0 then _ else _) = _
  rw [if_neg (by omega)]
  show (if (1 : Nat) ≠ (if ("signature" : String) = "encryption" then 2 else 1)
    then _ else _) = _
  rw [if_neg (by simp)]
  rw [hfz]
  show (if psLen < 8 then _ else _) = _
  rw [if_neg (by omega)]
  rw [if_neg (by rintro ⟨h, -⟩; simp at h)]
  rw [htake]
  have hff : ¬ (("signature" : String) = "signature" ∧
      ((List.replicate psLen 255).any fun b => b ≠ 255) = true) := by
    rintro ⟨-, hx⟩
    rw [List.any_eq_true] at hx
    obtain ⟨x, hmem, hxne⟩ := hx
    rcases (List.mem_replicate.mp hmem) with ⟨-, rfl⟩
    simp at hxne
  rw [if_neg hff]
  rw [hdrop]
  rw [if_neg (by omega)]

/-- C5 counterexample: the empty message is a valid message/target-length
combination (`len([]) = 0 ≤ 11 - 11`), but unpadding the padded empty
message raises (`Invalid padding: empty message`) instead of returning the
original message. -/
theorem C5_counterexample_empty_message :
    (apply_pkcs1_padding [] 11 "signature" []).bind
      (fun padded => remove_pkcs1_padding padded "signature") =
      .error "Invalid padding: empty message" ∧
    (apply_pkcs1_padding [] 11 "signature" []).bind
      (fun padded => remove_pkcs1_padding padded "signature") ≠
      .ok ([] : List Nat) := by
  constructor
  · rfl
  · intro h
    rw [show (apply_pkcs1_padding [] 11 "signature" []).bind
      (fun padded => remove_pkcs1_padding padded "signature") =
      (.error "Invalid padding: empty message" : Except String (List Nat)) from rfl] at h
    exact Except.noConfusion h

/-- C5 (amended): `unpad (pad msg target bt) bt = msg` holds for every
**non-empty** message, every `target ≥ len(msg) + 11`, both block types, and
every padding string the encryption padder can draw. -/
theorem C5_pad_unpad_identity (msg ps : List Nat) (target : Nat) (pt : String)
    (hpt : pt = "encryption" ∨ pt = "signature")
    (hmsg : 1 ≤ msg.length) (hlen : msg.length + 11 ≤ target)
    (hps : pt = "encryption" → ps.length = target - msg.length - 3 ∧ ∀ b ∈ ps, b ≠ 0) :
    (apply_pkcs1_padding msg target pt ps).bind
      (fun padded => remove_pkcs1_padding padded pt) = .ok msg := by
  rcases hpt with hpt | hpt
  · subst hpt
    obtain ⟨hl, hnz⟩ := hps rfl
    rw [apply_enc_eq msg ps target hlen hl]
    show remove_pkcs1_padding (0 :: 2 :: (ps ++ 0 :: msg)) "encryption" = .ok msg
    exact remove_enc_eq msg ps (by omega) hnz hmsg
  · subst hpt
    rw [apply_sig_eq msg ps target hlen]
    show remove_pkcs1_padding
      (0 :: 1 :: (List.replicate (target - msg.length - 3) 255 ++ 0 :: msg))
      "signature" = .ok msg
    exact remove_sig_eq msg (target - msg.length - 3) (by omega) hmsg

/-- Witness for the amended C5 with message `[65]`, target 12, both types. -/
theorem C5_witness :
    (apply_pkcs1_padding [65] 12 "encryption" [7, 7, 7, 7, 7, 7, 7, 7]).bind
      (fun padded => remove_pkcs1_padding padded "encryption") = .ok [65] ∧
    (apply_pkcs1_padding [65] 12 "signature" []).bind
      (fun padded => remove_pkcs1_padding padded "signature") = .ok [65] := by
  constructor
  · exact C5_pad_unpad_identity [65] [7, 7, 7, 7, 7, 7, 7, 7] 12 "encryption"
      (Or.inl rfl) (by decide) (by decide)
      (fun _ => ⟨by decide, by decide⟩)
  · exact C5_pad_unpad_identity [65] [] 12 "signature"
      (Or.inr rfl) (by decide) (by decide)
      (fun h => absurd h (by simp))

/-- Unpadding an encryption block whose padding byte `j` was flipped to zero:
below eight preceding padding bytes it errors, otherwise it succeeds with a
strictly longer (hence wrong) message. -/
theorem remove_enc_set_zero_eq (msg ps : List Nat) (j : Nat) (hps8 : 8 ≤ ps.length)
    (hpsnz : ∀ b ∈ ps, b ≠ 0) (hj : j < ps.length) :
    remove_pkcs1_padding (0 :: 2 :: (ps.set j 0 ++ 0 :: msg)) "encryption" =
      if j < 8 then .error "Invalid padding: padding string too short"
      else .ok ((ps.set j 0).drop (j + 1) ++ 0 :: msg) := by
  have hfz : findZero (ps.set j 0 ++ 0 :: msg) = some j :=
    findZero_set_zero ps (0 :: msg) j hj hpsnz
  have hlen11 : ¬ ((0 :: 2 :: (ps.set j 0 ++ 0 :: msg)).length < 11) := by
    simp only [List.length_cons, List.length_append, List.length_set]
    omega
  unfold remove_pkcs1_padding
  rw [if_neg hlen11]
  show (if (0 : Nat) ≠ 0 then _ else _) = _
  rw [if_neg (by omega)]
  show (if (2 : Nat) ≠ (if ("encryption" : String) = "encryption" then 2 else 1)
    then _ else _) = _
  rw [if_pos rfl]
  rw [if_neg (by omega)]
  rw [hfz]
  show (if j < 8 then _ else _) = _
  by_cases hj8 : j < 8
  · rw [if_pos hj8, if_pos hj8]
  · rw [if_neg hj8, if_neg hj8]
    have htake : (ps.set j 0 ++ 0 :: msg).take j = ps.take j := by
      rw [take_append_le _ _ j (by simp only [List.length_set]; omega), List.set_take]
      exact List.set_eq_of_length_le (by
        simp only [List.length_take]
        omega)
    rw [htake]
    have hany : ¬ (("encryption" : String) = "encryption" ∧
        ((ps.take j).any fun b => b = 0) = true) := by
      rintro ⟨-, hx⟩
      rw [List.any_eq_true] at hx
      obtain ⟨x, hmem, hx0⟩ := hx
      exact hpsnz x (List.take_subset j ps hmem) (by simpa using hx0)
    rw [if_neg hany]
    rw [if_neg (by rintro ⟨h, -⟩; simp at h)]
    have hdrop : (ps.set j 0 ++ 0 :: msg).drop (j + 1) =
        (ps.set j 0).drop (j + 1) ++ 0 :: msg :=
      drop_append_le _ _ _ (by simp only [List.length_set]; omega)
    rw [hdrop]
    rw [if_neg (by
      simp only [List.length_append, List.length_cons]
      omega)]

/-- Unpadding a signature block whose padding byte `j` was flipped to a
non-`0xFF` value `c`: for non-zero `c` it errors on the `0xFF` scan; for
`c = 0` it errors below eight preceding padding bytes and otherwise succeeds
with a strictly longer (hence wrong) message. -/
theorem remove_sig_set_eq (msg : List Nat) (psLen j c : Nat) (hps8 : 8 ≤ psLen)
    (hj : j < psLen) (hc : c ≠ 255) :
    remove_pkcs1_padding
      (0 :: 1 :: ((List.replicate psLen 255).set j c ++ 0 :: msg)) "signature" =
      if c = 0 then
        (if j < 8 then .error "Invalid padding: padding string too short"
         else .ok (((List.replicate psLen 255).set j c).drop (j + 1) ++ 0 :: msg))
      else .error "Invalid padding: non-0xFF byte in signature padding" := by
  have hnz : ∀ b ∈ List.replicate psLen 255, b ≠ (0 : Nat) := by
    intro b hb
    rcases (List.mem_replicate.mp hb) with ⟨-, rfl⟩
    omega
  have hlen11 : ¬ ((0 :: 1 :: ((List.replicate psLen 255).set j c ++ 0 :: msg)).length
      < 11) := by
    simp only [List.length_cons, List.length_append, List.length_set,
      List.length_replicate]
    omega
  unfold remove_pkcs1_padding
  rw [if_neg hlen11]
  show (if (0 : Nat) ≠ 0 then _ else _) = _
  rw [if_neg (by omega)]
  show (if (1 : Nat) ≠ (if ("signature" : String) = "encryption" then 2 else 1)
    then _ else _) = _
  rw [if_neg (by simp)]
  by_cases hc0 : c = 0
  · subst hc0
    rw [if_pos rfl]
    have hfz : findZero ((List.replicate psLen 255).set j 0 ++ 0 :: msg) = some j := by
      have := findZero_set_zero (List.replicate psLen 255) (0 :: msg) j
        (by simpa using hj) hnz
      simpa using this
    rw [hfz]
    show (if j < 8 then _ else _) = _
    by_cases hj8 : j < 8
    · rw [if_pos hj8, if_pos hj8]
    · rw [if_neg hj8, if_neg hj8]
      have htake : ((List.replicate psLen 255).set j 0 ++ 0 :: msg).take j =
          (List.replicate psLen 255).take j := by
        rw [take_append_le _ _ j (by
          simp only [List.length_set, List.length_replicate]
          omega), List.set_take]
        exact List.set_eq_of_length_le (by
          simp only [List.length_take, List.length_replicate]
          omega)
      rw [htake]
      rw [if_neg (by rintro ⟨h, -⟩; simp at h)]
      have hff : ¬ (("signature" : String) = "signature" ∧
          (((List.replicate psLen 255).take j).any fun b => b ≠ 255) = true) := by
        rintro ⟨-, hx⟩
        rw [List.any_eq_true] at hx
        obtain ⟨x, hmem, hxne⟩ := hx
        rcases (List.mem_replicate.mp (List.take_subset j _ hmem)) with ⟨-, rfl⟩
        simp at hxne
      rw [if_neg hff]
      have hdrop : ((List.replicate psLen 255).set j 0 ++ 0 :: msg).drop (j + 1) =
          ((List.replicate psLen 255).set j 0).drop (j + 1) ++ 0 :: msg :=
        drop_append_le _ _ _ (by
          simp only [List.length_set, List.length_replicate]
          omega)
      rw [hdrop]
      rw [if_neg (by
        simp only [List.length_append, List.length_cons]
        omega)]
  · rw [if_neg hc0]
    have hxsnz : ∀ b ∈ (List.replicate psLen 255).set j c, b ≠ (0 : Nat) := by
      intro b hb
      rcases List.mem_or_eq_of_mem_set hb with h | rfl
      · exact hnz b h
      · exact hc0
    have hfz : findZero ((List.replicate psLen 255).set j c ++ 0 :: msg) =
        some psLen := by
      have := findZero_append ((List.replicate psLen 255).set j c) msg hxsnz
      simpa using this
    rw [hfz]
    show (if psLen < 8 then _ else _) = _
    rw [if_neg (by omega)]
    have htake : ((List.replicate psLen 255).set j c ++ 0 :: msg).take psLen =
        (List.replicate psLen 255).set j c :=
      List.take_left' (by simp)
    rw [htake]
    rw [if_neg (by rintro ⟨h, -⟩; simp at h)]
    have hmemc : c ∈ (List.replicate psLen 255).set j c := by
      have hjlen : j < ((List.replicate psLen 255).set j c).length := by
        simp only [List.length_set, List.length_replicate]
        omega
      have hmem := List.getElem_mem hjlen
      rwa [List.getElem_set_self hjlen] at hmem
    rw [if_pos ⟨rfl, List.any_eq_true.mpr ⟨c, hmemc, by simpa using hc⟩⟩]

/-- C4 counterexample: a block produced by `pad` (message `[1]`, target 15,
encryption type, padding string of eleven `0x01` bytes) with the padding
byte at position 8 (buffer index 10) flipped to `0x00` is **accepted** by
`unpad`, which returns the wrong message `[1, 1, 0, 1]` instead of raising. -/
theorem C4_counterexample_corruption_accepted :
    apply_pkcs1_padding [1] 15 "encryption" [1, 1, 1, 1, 1, 1, 1, 1, 1, 1, 1] =
      .ok [0, 2, 1, 1, 1, 1, 1, 1, 1, 1, 1, 1, 1, 0, 1] ∧
    [0, 2, 1, 1, 1, 1, 1, 1, 1, 1, 1, 1, 1, 0, 1].set 10 0 =
      [0, 2, 1, 1, 1, 1, 1, 1, 1, 1, 0, 1, 1, 0, 1] ∧
    remove_pkcs1_padding [0, 2, 1, 1, 1, 1, 1, 1, 1, 1, 0, 1, 1, 0, 1]
      "encryption" = .ok [1, 1, 0, 1] := by
  exact ⟨rfl, rfl, rfl⟩

/-- C4 (amended): flipping a single padding byte (to `0x00` for encryption
padding, to any non-`0xFF` value for signature padding) makes `unpad` with
the matching block type either raise or return a message **different from
the original** (strictly longer); it raises whenever fewer than eight
padding bytes precede the corruption, or whenever the corrupted signature
byte is non-zero — but a `0x00` flip at padding position ≥ 8 is accepted
with a wrong message, so `unpad` does not always fail. -/
theorem C4_single_corruption_never_original (msg ps : List Nat) (target : Nat)
    (pt : String) (j c : Nat) (padded : List Nat)
    (hpt : pt = "encryption" ∨ pt = "signature")
    (hlen : msg.length + 11 ≤ target)
    (hps : pt = "encryption" → ps.length = target - msg.length - 3 ∧ ∀ b ∈ ps, b ≠ 0)
    (hj : j < target - msg.length - 3)
    (hcenc : pt = "encryption" → c = 0)
    (hcsig : pt = "signature" → c ≠ 255)
    (hpadded : apply_pkcs1_padding msg target pt ps = .ok padded) :
    remove_pkcs1_padding (padded.set (2 + j) c) pt ≠ .ok msg := by
  rcases hpt with hpt | hpt
  · subst hpt
    obtain ⟨hl, hnz⟩ := hps rfl
    obtain rfl : c = 0 := hcenc rfl
    rw [apply_enc_eq msg ps target hlen hl] at hpadded
    obtain rfl : padded = 0 :: 2 :: (ps ++ 0 :: msg) := (Except.ok.inj hpadded).symm
    have hj' : j < ps.length := by omega
    have hset : (0 :: 2 :: (ps ++ 0 :: msg)).set (2 + j) 0 =
        0 :: 2 :: (ps.set j 0 ++ 0 :: msg) := by
      rw [show 2 + j = (j + 1) + 1 by omega]
      rw [List.set_cons_succ, List.set_cons_succ, List.set_append_left j 0 hj']
    rw [hset]
    rw [remove_enc_set_zero_eq msg ps j (by omega) hnz hj']
    by_cases hj8 : j < 8
    · rw [if_pos hj8]
      intro h
      exact Except.noConfusion h
    · rw [if_neg hj8]
      intro h
      have heq := Except.ok.inj h
      have hlenEq := congrArg List.length heq
      simp only [List.length_append, List.length_cons, List.length_drop,
        List.length_set] at hlenEq
      omega
  · subst hpt
    have hc : c ≠ 255 := hcsig rfl
    rw [apply_sig_eq msg ps target hlen] at hpadded
    obtain rfl : padded =
        0 :: 1 :: (List.replicate (target - msg.length - 3) 255 ++ 0 :: msg) :=
      (Except.ok.inj hpadded).symm
    have hj' : j < (List.replicate (target - msg.length - 3) 255).length := by
      simp only [List.length_replicate]
      omega
    have hset : (0 :: 1 :: (List.replicate (target - msg.length - 3) 255 ++
        0 :: msg)).set (2 + j) c =
        0 :: 1 :: ((List.replicate (target - msg.length - 3) 255).set j c ++
          0 :: msg) := by
      rw [show 2 + j = (j + 1) + 1 by omega]
      rw [List.set_cons_succ, List.set_cons_succ, List.set_append_left j c hj']
    rw [hset]
    rw [remove_sig_set_eq msg (target - msg.length - 3) j c (by omega) hj hc]
    by_cases hc0 : c = 0
    · rw [if_pos hc0]
      by_cases hj8 : j < 8
      · rw [if_pos hj8]
        intro h
        exact Except.noConfusion h
      · rw [if_neg hj8]
        intro h
        have heq := Except.ok.inj h
        have hlenEq := congrArg List.length heq
        simp only [List.length_append, List.length_cons, List.length_drop,
          List.length_set, List.length_replicate] at hlenEq
        omega
    · rw [if_neg hc0]
      intro h
      exact Except.noConfusion h

/-- Witness for the amended C4: encryption block for `[65]`, target 12,
padding bytes all `0x07`, corruption at padding position 0. -/
theorem C4_witness :
    remove_pkcs1_padding
      ((0 :: 2 :: ([7, 7, 7, 7, 7, 7, 7, 7] ++ 0 :: [65])).set (2 + 0) 0)
      "encryption" ≠ .ok [65] :=
  C4_single_corruption_never_original [65] [7, 7, 7, 7, 7, 7, 7, 7] 12
    "encryption" 0 0 _ (Or.inl rfl) (by decide)
    (fun _ => ⟨by decide, by decide⟩) (by decide) (fun _ => rfl)
    (fun h => absurd h (by simp)) rfl

/-- C6 (code-bug evidence): `65 = 5 * 13` is divisible by the small prime 5
and is not itself in the table, yet `is_divisible_by_small_primes 65` returns
`False` (the function returns `n == prime`, contradicting its docstring
"True if divisible by any small prime"), so `miller_rabin_test` falls
through to the probabilistic rounds and accepts 65 whenever every drawn
base is the strong liar 57 (a base the secure draw `randbelow(62) + 2 ∈
[2, 63]` can produce). -/
theorem C6_small_prime_filter_broken :
    (65 ∈ SMALL_PRIMES) = False ∧ 65 % 5 = 0 ∧ (5 ∈ SMALL_PRIMES) = True ∧
    is_divisible_by_small_primes 65 = false ∧
    2 ≤ 57 ∧ 57 ≤ 65 - 2 ∧
    miller_rabin_test 65 1 (fun _ => 57) = true := by
  refine ⟨by simp [SMALL_PRIMES], by decide, by simp [SMALL_PRIMES], by decide,
    by decide, by decide, by decide⟩

/-- C7 (code-bug evidence): with `bit_length = 9` and the secure source, the
code draws `(9+7)//8 = 2` bytes, so the outcome `0xFFFF = 65535` is
possible; `generate_random_odd 9 True` then returns 65535, whose bit length
is 16, not 9 — contradicting the code's own comment
"ensure it has the correct bit length". -/
theorem C7_bit_length_not_forced :
    65535 < 2 ^ (8 * ((9 + 7) / 8)) ∧
    generate_random_odd 9 true 65535 = 65535 ∧
    bit_length (generate_random_odd 9 true 65535) = 16 ∧
    bit_length (generate_random_odd 9 true 65535) ≠ 9 ∧
    generate_random_odd 9 true 65535 % 2 = 1 := by
  refine ⟨by norm_num, by decide, by decide, by decide, by decide⟩

/-- C10: `decrypt_number` performs no range check: with a private exponent
loaded (and a meaningful modulus) it returns `c^d mod n` for **every**
ciphertext `c`, including `c ≥ n`; it errors exactly when no key pair or no
private exponent is loaded.  `encrypt_number`, by contrast, rejects
`m ≥ n`. -/
theorem C10_decrypt_no_range_check (kp : RSAKeyPair) (d : Nat)
    (hpriv : kp.private_key = some d) (hmod : 1 ≤ kp.modulus) :
    (∀ c : Nat, decrypt_number (some kp) c = .ok (c ^ d % kp.modulus)) ∧
    (∀ c : Nat, decrypt_number none c =
      .error "No private key available for decryption") ∧
    (∀ kp' : RSAKeyPair, kp'.private_key = none →
      ∀ c : Nat, decrypt_number (some kp') c =
        .error "No private key available for decryption") ∧
    (∀ m : Nat, m ≥ kp.modulus →
      encrypt_number (some kp) m = .error "Message too large for key size") := by
  refine ⟨?_, fun c => rfl, ?_, ?_⟩
  · intro c
    show (match kp.private_key with
      | none => Except.error "No private key available for decryption"
      | some d => Except.ok (fast_modular_exponentiation c d kp.modulus)) = _
    rw [hpriv]
    show Except.ok (fast_modular_exponentiation c d kp.modulus) = _
    rw [fme_correct _ _ _ hmod]
  · intro kp' hnone c
    show (match kp'.private_key with
      | none => Except.error "No private key available for decryption"
      | some d => Except.ok (fast_modular_exponentiation c d kp'.modulus)) = _
    rw [hnone]
  · intro m hm
    show (if m ≥ kp.modulus then _ else _) = _
    rw [if_pos hm]

/-- Witness for C10: key `(e, n) = (3, 55)`, `d = 27`, out-of-range
ciphertext `c = 100 ≥ 55` decrypts fine; encryption of 100 errors. -/
theorem C10_witness :
    (⟨(3, 55), some 27, 55⟩ : RSAKeyPair).private_key = some 27 ∧
    1 ≤ (⟨(3, 55), some 27, 55⟩ : RSAKeyPair).modulus ∧
    decrypt_number (some ⟨(3, 55), some 27, 55⟩) 100 = .ok (100 ^ 27 % 55) ∧
    encrypt_number (some ⟨(3, 55), some 27, 55⟩) 100 =
      .error "Message too large for key size" := by
  have h := C10_decrypt_no_range_check ⟨(3, 55), some 27, 55⟩ 27 rfl (by decide)
  exact ⟨rfl, by decide, h.1 100, h.2.2.2 100 (by decide)⟩

/-- C3 counterexample: with **no key pair loaded**, `verify_signature`
raises (`ValueError("No key pair loaded")` sits before the `try` block)
instead of returning a boolean. -/
theorem C3_counterexample_no_key_raises :
    verify_signature none true (.ok []) [] = .error "No key pair loaded" := rfl

/-- C3 (amended): whenever a key pair **is** loaded, `verify_signature`
returns a boolean for all inputs, converting every internal failure
(unknown hash name, base64 decode failure, out-of-range signature integer,
unpadding failure, digest mismatch) into `false`; with no key pair loaded it
raises. -/
theorem C3_verify_signature_total_when_loaded :
    (∀ (kp : RSAKeyPair) (hashKnown : Bool) (decodeRes : Except String (List Nat))
      (digest : List Nat),
      verify_signature (some kp) hashKnown decodeRes digest =
        .ok (verifyBody kp hashKnown decodeRes digest)) ∧
    (∀ (kp : RSAKeyPair) (decodeRes : Except String (List Nat)) (digest : List Nat),
      verifyBody kp false decodeRes digest = false) ∧
    (∀ (kp : RSAKeyPair) (hashKnown : Bool) (msg : String) (digest : List Nat),
      verifyBody kp hashKnown (.error msg) digest = false) ∧
    (∀ (kp : RSAKeyPair) (hashKnown : Bool) (bs digest : List Nat),
      bytes_to_int bs ≥ kp.modulus →
      verifyBody kp hashKnown (.ok bs) digest = false) ∧
    (∀ (hashKnown : Bool) (decodeRes : Except String (List Nat)) (digest : List Nat),
      verify_signature none hashKnown decodeRes digest =
        .error "No key pair loaded") := by
  refine ⟨fun kp hk dr dg => rfl, fun kp dr dg => rfl, ?_, ?_, fun hk dr dg => rfl⟩
  · intro kp hashKnown msg digest
    cases hashKnown <;> rfl
  · intro kp hashKnown bs digest hge
    cases hashKnown with
    | false => rfl
    | true =>
      show (match encrypt_number (some kp) (bytes_to_int bs) with
        | .error _ => false
        | .ok decrypted_int => _) = false
      have henc : encrypt_number (some kp) (bytes_to_int bs) =
          .error "Message too large for key size" := by
        show (if bytes_to_int bs ≥ kp.modulus then _ else _) = _
        rw [if_pos hge]
      rw [henc]

/-- Witness for the amended C3: concrete key `(3, 55, d = 27)`, a decoded
signature `[1, 0]` whose integer 256 exceeds the modulus (verifies to
`false` without raising), and the no-key error. -/
theorem C3_witness :
    verify_signature (some ⟨(3, 55), some 27, 55⟩) true (.ok [1, 0]) [] =
      .ok false ∧
    bytes_to_int [1, 0] ≥ 55 ∧
    verify_signature none false (.ok []) [1] = .error "No key pair loaded" := by
  have h := C3_verify_signature_total_when_loaded
  refine ⟨?_, by decide, h.2.2.2.2 false (.ok []) [1]⟩
  rw [h.1 ⟨(3, 55), some 27, 55⟩ true (.ok [1, 0]) []]
  rw [h.2.2.2.1 ⟨(3, 55), some 27, 55⟩ true [1, 0] [] (by decide)]

/-! ## Lemmas: the text pipeline -/

theorem encrypt_number_ok (kp : RSAKeyPair) (m : Nat) (h : ¬ m ≥ kp.modulus) :
    encrypt_number (some kp) m =
      .ok (fast_modular_exponentiation m kp.public_key.1 kp.modulus) := by
  show (if m ≥ kp.modulus then _ else _) = _
  rw [if_neg h]

theorem decrypt_number_ok (kp : RSAKeyPair) (d c : Nat) (h : kp.private_key = some d) :
    decrypt_number (some kp) c =
      .ok (fast_modular_exponentiation c d kp.modulus) := by
  show (match kp.private_key with
    | none => Except.error "No private key available for decryption"
    | some d => Except.ok (fast_modular_exponentiation c d kp.modulus)) = _
  rw [h]

theorem int_to_bytes_ok (x L : Nat) (h : x < 256 ^ L) :
    int_to_bytes x L = .ok (intToBytesAux L x) := by
  unfold int_to_bytes
  rw [if_pos h]

theorem except_bind_ok {α β : Type} (a : α) (f : α → Except String β) :
    (Except.ok a : Except String α).bind f = f a := rfl

/-- C2 (amended): with a key pair holding a private exponent whose two
exponents invert each other on the padded block (as every generated key
pair does, by C1), `decrypt_text ∘ encrypt_text` is the identity on every
**non-empty** message of at most `byte_length - 11` bytes — for every
padding-string draw and every byte-faithful base64/UTF-8 codec pair. -/
theorem C2_text_roundtrip_nonempty (e n d : Nat) (s : String) (ps : List Nat)
    (utf8encode : String → List Nat) (b64encode : List Nat → String)
    (b64decode : String → Except String (List Nat))
    (utf8decode : List Nat → Except String String)
    (hL : 12 ≤ calculate_byte_length (bit_length n))
    (hmb1 : 1 ≤ (utf8encode s).length)
    (hmblen : (utf8encode s).length + 11 ≤ calculate_byte_length (bit_length n))
    (hmb256 : ∀ b ∈ utf8encode s, b < 256)
    (hps : ps.length = calculate_byte_length (bit_length n) -
      (utf8encode s).length - 3)
    (hpsrange : ∀ b ∈ ps, 1 ≤ b ∧ b ≤ 255)
    (hinv : fast_modular_exponentiation
      (fast_modular_exponentiation
        (bytes_to_int (0 :: 2 :: (ps ++ 0 :: utf8encode s))) e n) d n =
      bytes_to_int (0 :: 2 :: (ps ++ 0 :: utf8encode s)))
    (hb64 : b64decode (b64encode (intToBytesAux
        (calculate_byte_length (bit_length n))
        (fast_modular_exponentiation
          (bytes_to_int (0 :: 2 :: (ps ++ 0 :: utf8encode s))) e n))) =
      .ok (intToBytesAux (calculate_byte_length (bit_length n))
        (fast_modular_exponentiation
          (bytes_to_int (0 :: 2 :: (ps ++ 0 :: utf8encode s))) e n)))
    (hutf : utf8decode (utf8encode s) = .ok s) :
    (encrypt_text (some ⟨(e, n), some d, n⟩) utf8encode b64encode ps s).bind
      (decrypt_text (some ⟨(e, n), some d, n⟩) b64decode utf8decode) = .ok s := by
  set kp : RSAKeyPair := ⟨(e, n), some d, n⟩ with hkp
  set mb := utf8encode s with hmb
  set L := calculate_byte_length (bit_length n) with hLdef
  set padded := 0 :: 2 :: (ps ++ 0 :: mb) with hpadded
  set mi := bytes_to_int padded with hmi
  set c := fast_modular_exponentiation mi e n with hc
  set ct := intToBytesAux L c with hct
  have hn1 : 1 ≤ n := by
    by_contra hcon
    have hn0 : n = 0 := by omega
    rw [hn0] at hLdef
    have : L = 0 := hLdef
    omega
  obtain ⟨hbl_low, hbl_high, hbl1⟩ := bit_length_bounds n hn1
  have h8L : 8 * L ≤ bit_length n + 7 := by
    rw [hLdef]
    show 8 * ((bit_length n + 7) / 8) ≤ bit_length n + 7
    omega
  have hblL : bit_length n ≤ 8 * L := by
    rw [hLdef]
    show bit_length n ≤ 8 * ((bit_length n + 7) / 8)
    omega
  have h256 : ∀ k : Nat, (256 : Nat) ^ k = 2 ^ (8 * k) := by
    intro k
    rw [show (256 : Nat) = 2 ^ 8 from rfl, ← pow_mul]
  have hpadlen : padded.length = L := by
    rw [hpadded]
    simp only [List.length_cons, List.length_append]
    omega
  have hpadbytes : ∀ b ∈ padded, b < 256 := by
    intro b hb
    rw [hpadded] at hb
    simp only [List.mem_cons, List.mem_append] at hb
    rcases hb with rfl | rfl | hb | hb
    · omega
    · omega
    · have := hpsrange b hb
      omega
    · rcases hb with rfl | hb
      · omega
      · exact hmb256 b hb
  have hmi_lt : mi < 256 ^ (L - 1) := by
    rw [hmi, hpadded, bytes_to_int_cons]
    have hrest : (2 :: (ps ++ 0 :: mb)).length = L - 1 := by
      simp only [List.length_cons, List.length_append]
      omega
    have hbnd := bytes_to_int_lt (2 :: (ps ++ 0 :: mb)) (by
      intro b hb
      have : b ∈ padded := by
        rw [hpadded]
        exact List.mem_cons_of_mem 0 hb
      exact hpadbytes b this)
    rw [hrest] at hbnd
    simpa using hbnd
  have hmi_n : mi < n := by
    have h1 : (256 : Nat) ^ (L - 1) = 2 ^ (8 * (L - 1)) := h256 _
    have h2 : (2 : Nat) ^ (8 * (L - 1)) ≤ 2 ^ (bit_length n - 1) :=
      Nat.pow_le_pow_right (by omega) (by omega)
    omega
  have hc_n : c < n := fme_lt _ _ _ hn1
  have hc_256 : c < 256 ^ L := by
    have h1 : (256 : Nat) ^ L = 2 ^ (8 * L) := h256 _
    have h2 : (2 : Nat) ^ (bit_length n) ≤ 2 ^ (8 * L) :=
      Nat.pow_le_pow_right (by omega) (by omega)
    omega
  have hmi_256 : mi < 256 ^ L := by
    have h2 : (256 : Nat) ^ (L - 1) ≤ 256 ^ L :=
      Nat.pow_le_pow_right (by omega) (by omega)
    omega
  have hENC : encrypt_text (some kp) utf8encode b64encode ps s =
      .ok (b64encode ct) := by
    show (if ((utf8encode s).length : Int) >
        ((calculate_byte_length kp.key_size : Nat) : Int) - 11 then
        (.error "Message too long" : Except String String)
      else do
        let padded_message ← apply_pkcs1_padding (utf8encode s)
          (calculate_byte_length kp.key_size) "encryption" ps
        let message_int := bytes_to_int padded_message
        let encrypted_int ← encrypt_number (some kp) message_int
        let encrypted_bytes ← int_to_bytes encrypted_int
          (calculate_byte_length kp.key_size)
        return b64encode encrypted_bytes) = _
    have hks : calculate_byte_length kp.key_size = L := rfl
    rw [hks, if_neg (by rw [← hmb]; omega)]
    rw [← hmb]
    show (apply_pkcs1_padding mb L "encryption" ps).bind _ = _
    rw [apply_enc_eq mb ps L hmblen hps]
    show (encrypt_number (some kp) mi).bind _ = _
    rw [encrypt_number_ok kp mi (by
      show ¬ mi ≥ n
      omega)]
    show (int_to_bytes c L).bind _ = _
    rw [int_to_bytes_ok c L hc_256]
    rfl
  rw [hENC]
  show decrypt_text (some kp) b64decode utf8decode (b64encode ct) = Except.ok s
  have hctint : bytes_to_int ct = c := by
    rw [hct, bytes_to_int_intToBytesAux, Nat.mod_eq_of_lt hc_256]
  have hdecnum : decrypt_number (some kp) c = .ok mi := by
    rw [decrypt_number_ok kp d c rfl]
    exact congrArg Except.ok hinv
  have hback : intToBytesAux L mi = padded := by
    rw [hmi, ← hpadlen]
    exact intToBytesAux_bytes_to_int padded hpadbytes
  have hrm : remove_pkcs1_padding padded "encryption" = .ok mb := by
    rw [hpadded]
    exact remove_enc_eq mb ps (by omega) (by
      intro b hb
      have := hpsrange b hb
      omega) hmb1
  have hattempt : (do
      let encrypted_bytes ← b64decode (b64encode ct)
      let encrypted_int := bytes_to_int encrypted_bytes
      let decrypted_int ← decrypt_number (some kp) encrypted_int
      let decrypted_bytes ← int_to_bytes decrypted_int
        (calculate_byte_length kp.key_size)
      let message_bytes ← remove_pkcs1_padding decrypted_bytes "encryption"
      utf8decode message_bytes : Except String String) = .ok s := by
    show (b64decode (b64encode ct)).bind _ = _
    rw [hb64, except_bind_ok, hctint]
    show (decrypt_number (some kp) c).bind _ = _
    rw [hdecnum, except_bind_ok]
    show (int_to_bytes mi L).bind _ = _
    rw [int_to_bytes_ok mi L hmi_256, except_bind_ok]
    rw [hback]
    show (remove_pkcs1_padding padded "encryption").bind _ = _
    rw [hrm, except_bind_ok]
    exact hutf
  show (match (do
      let encrypted_bytes ← b64decode (b64encode ct)
      let encrypted_int := bytes_to_int encrypted_bytes
      let decrypted_int ← decrypt_number (some kp) encrypted_int
      let decrypted_bytes ← int_to_bytes decrypted_int
        (calculate_byte_length kp.key_size)
      let message_bytes ← remove_pkcs1_padding decrypted_bytes "encryption"
      utf8decode message_bytes : Except String String) with
    | Except.ok s => Except.ok s
    | Except.error e =>
      Except.error ("Decryption failed: " ++ e)) = Except.ok s
  rw [hattempt]

set_option maxRecDepth 100000 in
/-- C2 counterexample: a real RSA key pair
(`n = 70368744190051 * 70368744955499`, `e = 65537`, `d = e⁻¹ mod φ`,
byte length 12) round-trips every one-to-max-size message, but on the
**empty string** (whose byte length 0 is within `max_message_size = 1`)
`decrypt_text (encrypt_text "")` raises
`Decryption failed: Invalid padding: empty message` instead of returning
`""`. -/
theorem C2_counterexample_empty_string :
    (encrypt_text
        (some ⟨(65537, 4951760212748450870793540449),
          some 46014037407322899601482773, 4951760212748450870793540449⟩)
        chr_utf8_encode chr_b64encode (List.replicate 9 1) "").bind
      (decrypt_text
        (some ⟨(65537, 4951760212748450870793540449),
          some 46014037407322899601482773, 4951760212748450870793540449⟩)
        chr_b64decode chr_utf8_decode) =
      .error "Decryption failed: Invalid padding: empty message" ∧
    (encrypt_text
        (some ⟨(65537, 4951760212748450870793540449),
          some 46014037407322899601482773, 4951760212748450870793540449⟩)
        chr_utf8_encode chr_b64encode (List.replicate 9 1) "").bind
      (decrypt_text
        (some ⟨(65537, 4951760212748450870793540449),
          some 46014037407322899601482773, 4951760212748450870793540449⟩)
        chr_b64decode chr_utf8_decode) ≠ .ok "" := by
  refine ⟨rfl, ?_⟩
  intro h
  rw [show (encrypt_text
      (some ⟨(65537, 4951760212748450870793540449),
        some 46014037407322899601482773, 4951760212748450870793540449⟩)
      chr_utf8_encode chr_b64encode (List.replicate 9 1) "").bind
    (decrypt_text
      (some ⟨(65537, 4951760212748450870793540449),
        some 46014037407322899601482773, 4951760212748450870793540449⟩)
      chr_b64decode chr_utf8_decode) =
    (.error "Decryption failed: Invalid padding: empty message" :
      Except String String) from rfl] at h
  exact Except.noConfusion h

set_option maxRecDepth 100000 in
/-- Witness for the amended C2: the same real key pair round-trips the
one-byte message `"A"`. -/
theorem C2_witness :
    (encrypt_text
        (some ⟨(65537, 4951760212748450870793540449),
          some 46014037407322899601482773, 4951760212748450870793540449⟩)
        chr_utf8_encode chr_b64encode [7, 7, 7, 7, 7, 7, 7, 7] "A").bind
      (decrypt_text
        (some ⟨(65537, 4951760212748450870793540449),
          some 46014037407322899601482773, 4951760212748450870793540449⟩)
        chr_b64decode chr_utf8_decode) = .ok "A" := by
  exact C2_text_roundtrip_nonempty 65537 4951760212748450870793540449
    46014037407322899601482773 "A" [7, 7, 7, 7, 7, 7, 7, 7]
    chr_utf8_encode chr_b64encode chr_b64decode chr_utf8_decode
    (by decide) (by decide) (by decide) (by decide) (by decide) (by decide)
    (by decide) (by rfl) (by rfl)

end Cryptoforge
